import Mathlib

/-!
Verification of the bloomflt Bloom filter package.

The Go source is embedded shallowly:

* `BloomFilter` mirrors the struct with fields `m`, `k` (Go `int`, modelled
  as `Int`) and `bucket` (a `big.Int` used as a bit set; it is only ever
  written with `SetBit _ _ 1`, so it stays nonnegative and is modelled as a
  `Nat` whose binary digits are the bit array).
* Byte slices are `List Nat`, each entry a byte value (reduced `% 256` at
  the point where Go converts a `byte` to `uint32`, mirroring `uint32(c)`).
* 32-bit unsigned wraparound is explicit `% 2 ^ 32`.
* A Go operation that can panic (the `% uint32(b.m)` with `uint32(b.m) = 0`
  raises a division-by-zero run-time error) returns an `Option`: `none`
  models the panic.
-/

namespace Bloomflt

/-- The BloomFilter struct of the source: `m` (number of bits), `k` (number of
hash functions) and `bucket` (the big.Int bit storage, nonnegative, so a Nat). -/
structure BloomFilter where
  m : Int
  k : Int
  bucket : Nat
deriving Repr, DecidableEq

/-- NewMK creates a new bloom filter with bucket size m, k hash functions and
a zero bit storage (`big.NewInt(0)`). -/
def NewMK (m k : Int) : BloomFilter :=
  ⟨m, k, 0⟩

/-- Go conversion `uint32(x)` of an `int` value `x`: the value modulo 2^32,
as a natural number in `0 .. 2^32 - 1`. -/
def uint32ofInt (x : Int) : Nat :=
  (x % 2 ^ 32).toNat

/-- hash1 of the source: FNV-1a (`fnv.New32a`), offset basis 2166136261,
prime 16777619; per byte the hash is XORed with the byte and then multiplied
by the prime in 32-bit arithmetic. The receiver is unused in the source. -/
def hash1 (value : List Nat) : Nat :=
  value.foldl (fun h c => ((h ^^^ (c % 256)) * 16777619) % 2 ^ 32) 2166136261

/-- One shift step of CRC-32 with the reflected IEEE polynomial 0xEDB88320. -/
def crc32Round (crc : Nat) : Nat :=
  if crc % 2 = 1 then (crc / 2) ^^^ 0xEDB88320 else crc / 2

/-- CRC-32 update by one input byte: XOR the byte in, then eight polynomial
shift steps. -/
def crc32Byte (crc c : Nat) : Nat :=
  Nat.iterate crc32Round 8 (crc ^^^ (c % 256))

/-- hash2 of the source: CRC-32 with the IEEE polynomial (`crc32.NewIEEE`),
initial value 0xFFFFFFFF and final XOR 0xFFFFFFFF. The receiver is unused
in the source. -/
def hash2 (value : List Nat) : Nat :=
  (value.foldl crc32Byte 0xFFFFFFFF) ^^^ 0xFFFFFFFF

/-- kiMiHash of the source: the Kirsch–Mitzenmacher double-hashing scheme,
`(b.hash1(value) + b.hash2(value)*uint32(hashIdx)) % uint32(b.m)`, every
arithmetic operation in `uint32`. When `uint32(b.m) = 0` the Go expression
raises a division-by-zero run-time error, modelled as `none`. -/
def kiMiHash (b : BloomFilter) (value : List Nat) (hashIdx : Int) : Option Nat :=
  if uint32ofInt b.m = 0 then none
  else some (((hash1 value + (hash2 value * uint32ofInt hashIdx) % 2 ^ 32) % 2 ^ 32)
    % uint32ofInt b.m)

/-- Probe positions for the given list of hash indices, computed in order;
the first division-by-zero error aborts the whole computation, exactly as the
panic aborts the Go loop. -/
def probeAux (b : BloomFilter) (value : List Nat) : List Int → Option (List Nat)
  | [] => some []
  | h :: rest =>
    match kiMiHash b value h, probeAux b value rest with
    | some i, some is => some (i :: is)
    | _, _ => none

/-- Hash indices `h = 0, 1, ..., k-1` visited by the loops
`for h := 0; h < b.k; h++` of AddBytes and ContainsBytes. -/
def hashIndices (b : BloomFilter) : List Int :=
  (List.range b.k.toNat).map Int.ofNat

/-- All probe positions of a value, in loop order. -/
def probes (b : BloomFilter) (value : List Nat) : Option (List Nat) :=
  probeAux b value (hashIndices b)

/-- Repeated `b.bucket.SetBit(b.bucket, index, 1)` over a list of indices. -/
def setBits (bucket : Nat) (idxs : List Nat) : Nat :=
  idxs.foldl (fun acc i => acc ||| 2 ^ i) bucket

/-- AddBytes of the source: for each `h < b.k` compute `kiMiHash(value, h)`
and set that bit of the bucket. The probe positions do not depend on the
bucket, so they are computed first here; `none` models the panic when
`uint32(b.m) = 0` (in which case the Go loop dies on its first iteration,
before mutating anything). -/
def AddBytes (b : BloomFilter) (value : List Nat) : Option BloomFilter :=
  (probes b value).map (fun idxs => { b with bucket := setBits b.bucket idxs })

/-- ContainsBytes of the source: `res := true`; for each `h < b.k`, if the
bit at `kiMiHash(value, h)` is 0 then `res = false`; return `res`. The loop
does not short-circuit. -/
def ContainsBytes (b : BloomFilter) (value : List Nat) : Option Bool :=
  (probes b value).map
    (fun idxs => idxs.foldl (fun res i => if b.bucket.testBit i then res else false) true)

/-- binary.LittleEndian.PutUint32: the 4 bytes of x, least significant first. -/
def putUint32LE (x : Nat) : List Nat :=
  [x % 256, (x >>> 8) % 256, (x >>> 16) % 256, (x >>> 24) % 256]

/-- binary.LittleEndian.PutUint64: the 8 bytes of x, least significant first. -/
def putUint64LE (x : Nat) : List Nat :=
  [x % 256, (x >>> 8) % 256, (x >>> 16) % 256, (x >>> 24) % 256,
    (x >>> 32) % 256, (x >>> 40) % 256, (x >>> 48) % 256, (x >>> 56) % 256]

/-- AddUInt32 of the source: insert the 4-byte little-endian encoding. -/
def AddUInt32 (b : BloomFilter) (value : Nat) : Option BloomFilter :=
  AddBytes b (putUint32LE value)

/-- AddUInt64 of the source: insert the 8-byte little-endian encoding. -/
def AddUInt64 (b : BloomFilter) (value : Nat) : Option BloomFilter :=
  AddBytes b (putUint64LE value)

/-- ContainsUInt32 of the source: query the 4-byte little-endian encoding. -/
def ContainsUInt32 (b : BloomFilter) (value : Nat) : Option Bool :=
  ContainsBytes b (putUint32LE value)

/-- ContainsUInt64 of the source: query the 8-byte little-endian encoding. -/
def ContainsUInt64 (b : BloomFilter) (value : Nat) : Option Bool :=
  ContainsBytes b (putUint64LE value)

/-- A sequence of AddBytes calls, failing as soon as one call fails. -/
def addAll : BloomFilter → List (List Nat) → Option BloomFilter
  | b, [] => some b
  | b, v :: vs => (AddBytes b v).bind (fun b1 => addAll b1 vs)

/-- The constructor New of the source first derives `(m, k)` with the
floating-point sizing function CalcOptimalMK and then clamps: `m` is floored
to 1, capped at `math.MaxInt32 = 2^31 - 1`, and `k` is floored to 1. The
floating-point derivation is outside the shallow embedding, so its result is
taken here as an arbitrary integer pair `mk`; theorems about `NewClamp`
therefore hold for every value CalcOptimalMK could possibly return. The
clamping itself follows the source exactly (the source floors before it
caps, and a floored `m = 1` never exceeds the cap, so the nested
conditional below is the same function). -/
def NewClamp (mk : Int × Int) : BloomFilter :=
  NewMK (if mk.1 < 1 then 1 else if mk.1 > 2 ^ 31 - 1 then 2 ^ 31 - 1 else mk.1)
    (if mk.2 < 1 then 1 else mk.2)

/-- Spec-side probe formula, written from the words of the spec, section 4.3:
`position(value, i) = (hash1(value) + i * hash2(value)) mod m`, the addition
and the multiplication performed with 32-bit unsigned wraparound before the
mod. To be compared with `kiMiHash`, which is translated from the source. -/
def position_spec (value : List Nat) (i : Nat) (m : Nat) : Nat :=
  ((hash1 value + (i * hash2 value) % 2 ^ 32) % 2 ^ 32) % m

/-- Spec-side query loop that stops at the first zero bit (the short-circuit
formulation the spec allows in section 4.5). -/
def allOnes (bucket : Nat) : List Nat → Bool
  | [] => true
  | i :: rest => if bucket.testBit i then allOnes bucket rest else false

/-- ContainsBytes variant that short-circuits at the first zero probe bit,
to be compared with the non-short-circuiting `ContainsBytes` of the source. -/
def containsShortCircuit (b : BloomFilter) (value : List Nat) : Option Bool :=
  (probes b value).map (allOnes b.bucket)

/-- Closed form of the probe position that `kiMiHash` returns when
`uint32(b.m)` is nonzero; proof support. -/
def probePos (b : BloomFilter) (value : List Nat) (hashIdx : Int) : Nat :=
  ((hash1 value + (hash2 value * uint32ofInt hashIdx) % 2 ^ 32) % 2 ^ 32) % uint32ofInt b.m

/-- List of the probe positions of a value when `uint32(b.m)` is nonzero;
proof support. -/
def probeList (b : BloomFilter) (value : List Nat) : List Nat :=
  (hashIndices b).map (probePos b value)

/- Sanity checks of the two base hash functions against published test
vectors ("foobar" for FNV-1a, "123456789" for CRC-32/IEEE). -/

set_option maxRecDepth 10000 in
theorem hash1_foobar : hash1 [0x66, 0x6f, 0x6f, 0x62, 0x61, 0x72] = 0xbf9cf968 := by decide

set_option maxRecDepth 10000 in
theorem hash2_check : hash2 [0x31, 0x32, 0x33, 0x34, 0x35, 0x36, 0x37, 0x38, 0x39] = 0xCBF43926 := by
  decide

/-! Helper lemmas about the conversion `uint32ofInt`. -/

theorem uint32ofInt_of_lt {x : Int} (h0 : 0 ≤ x) (h1 : x < 2 ^ 32) :
    uint32ofInt x = x.toNat := by
  show (x % 2 ^ 32).toNat = x.toNat
  omega

theorem uint32ofInt_ofNat (n : Nat) : uint32ofInt (Int.ofNat n) = n % 2 ^ 32 := by
  show ((Int.ofNat n) % 2 ^ 32).toNat = n % 2 ^ 32
  rw [Int.ofNat_eq_natCast]
  omega

theorem mu_ne_zero {b : BloomFilter} (h1 : 1 ≤ b.m) (h2 : b.m ≤ 2 ^ 31 - 1) :
    uint32ofInt b.m ≠ 0 := by
  show (b.m % 2 ^ 32).toNat ≠ 0
  omega

/-! Helper lemmas characterising the probe computation when `uint32(b.m)` is
nonzero. -/

theorem kiMiHash_eq {b : BloomFilter} (hmu : uint32ofInt b.m ≠ 0) (value : List Nat)
    (hashIdx : Int) : kiMiHash b value hashIdx = some (probePos b value hashIdx) := by
  unfold kiMiHash probePos
  simp [hmu]

theorem probeAux_eq {b : BloomFilter} (hmu : uint32ofInt b.m ≠ 0) (value : List Nat) :
    ∀ hs : List Int, probeAux b value hs = some (hs.map (probePos b value)) := by
  intro hs
  induction hs with
  | nil => rfl
  | cons x xs ih => simp [probeAux, kiMiHash_eq hmu, ih]

theorem probes_eq {b : BloomFilter} (hmu : uint32ofInt b.m ≠ 0) (value : List Nat) :
    probes b value = some (probeList b value) :=
  probeAux_eq hmu value (hashIndices b)

theorem probePos_lt {b : BloomFilter} (hmu : uint32ofInt b.m ≠ 0) (value : List Nat)
    (hashIdx : Int) : probePos b value hashIdx < uint32ofInt b.m :=
  Nat.mod_lt _ (Nat.pos_of_ne_zero hmu)

theorem probeAux_congr {b b' : BloomFilter} (hm : b'.m = b.m) (value : List Nat) :
    ∀ hs : List Int, probeAux b' value hs = probeAux b value hs := by
  intro hs
  induction hs with
  | nil => rfl
  | cons x xs ih => simp [probeAux, kiMiHash, hm, ih]

theorem probes_congr {b b' : BloomFilter} (hm : b'.m = b.m) (hk : b'.k = b.k)
    (value : List Nat) : probes b' value = probes b value := by
  unfold probes hashIndices
  rw [hk, probeAux_congr hm]

/-! Helper lemmas about the bit set. -/

theorem setBits_cons (bucket x : Nat) (xs : List Nat) :
    setBits bucket (x :: xs) = setBits (bucket ||| 2 ^ x) xs := rfl

theorem testBit_setBits : ∀ (idxs : List Nat) (bucket j : Nat),
    (setBits bucket idxs).testBit j = true ↔ (bucket.testBit j = true ∨ j ∈ idxs) := by
  intro idxs
  induction idxs with
  | nil => intro bucket j; simp [setBits]
  | cons x xs ih =>
    intro bucket j
    rw [setBits_cons, ih, Nat.testBit_lor]
    by_cases hx : x = j
    · subst hx
      simp [Nat.testBit_two_pow_self, List.mem_cons]
    · simp only [Nat.testBit_two_pow_of_ne hx, Bool.or_false, List.mem_cons]
      constructor
      · rintro (h | h)
        · exact Or.inl h
        · exact Or.inr (Or.inr h)
      · rintro (h | h | h)
        · exact Or.inl h
        · exact absurd h.symm hx
        · exact Or.inr h

theorem setBits_mem (idxs : List Nat) (bucket j : Nat) (h : j ∈ idxs) :
    (setBits bucket idxs).testBit j = true :=
  (testBit_setBits idxs bucket j).mpr (Or.inr h)

theorem setBits_mono (idxs : List Nat) (bucket j : Nat) (h : bucket.testBit j = true) :
    (setBits bucket idxs).testBit j = true :=
  (testBit_setBits idxs bucket j).mpr (Or.inl h)

theorem setBits_idem (bucket : Nat) (idxs : List Nat) :
    setBits (setBits bucket idxs) idxs = setBits bucket idxs := by
  apply Nat.eq_of_testBit_eq
  intro j
  rw [Bool.eq_iff_iff, testBit_setBits, testBit_setBits]
  tauto

/-! Helper lemmas characterising AddBytes and ContainsBytes. -/

theorem addBytes_eq {b : BloomFilter} (hmu : uint32ofInt b.m ≠ 0) (value : List Nat) :
    AddBytes b value = some { b with bucket := setBits b.bucket (probeList b value) } := by
  unfold AddBytes
  rw [probes_eq hmu, Option.map_some']

theorem foldl_check (bucket : Nat) : ∀ (idxs : List Nat) (r : Bool),
    idxs.foldl (fun res i => if bucket.testBit i then res else false) r
      = (r && idxs.all (fun i => bucket.testBit i)) := by
  intro idxs
  induction idxs with
  | nil => intro r; simp
  | cons x xs ih =>
    intro r
    rw [List.foldl_cons, ih, List.all_cons]
    cases hx : bucket.testBit x <;> simp [hx]

theorem containsBytes_eq {b : BloomFilter} (hmu : uint32ofInt b.m ≠ 0) (value : List Nat) :
    ContainsBytes b value
      = some ((probeList b value).all (fun i => b.bucket.testBit i)) := by
  unfold ContainsBytes
  rw [probes_eq hmu, Option.map_some', foldl_check, Bool.true_and]

theorem addBytes_some_inv {b b' : BloomFilter} {value : List Nat}
    (h : AddBytes b value = some b') :
    b'.m = b.m ∧ b'.k = b.k ∧
      ∃ idxs, probes b value = some idxs ∧ b'.bucket = setBits b.bucket idxs := by
  unfold AddBytes at h
  rw [Option.map_eq_some'] at h
  obtain ⟨idxs, hp, hf⟩ := h
  subst hf
  exact ⟨rfl, rfl, idxs, hp, rfl⟩

theorem contains_true_mono {b b' : BloomFilter} (hm : b'.m = b.m) (hk : b'.k = b.k)
    (hbits : ∀ j, b.bucket.testBit j = true → b'.bucket.testBit j = true)
    {value : List Nat} (h : ContainsBytes b value = some true) :
    ContainsBytes b' value = some true := by
  unfold ContainsBytes at h ⊢
  rw [probes_congr hm hk]
  cases hp : probes b value with
  | none => rw [hp] at h; exact absurd h (by simp)
  | some idxs =>
    rw [hp, Option.map_some'] at h
    rw [Option.map_some']
    rw [Option.some_inj] at h ⊢
    rw [foldl_check, Bool.true_and, List.all_eq_true] at h
    rw [foldl_check, Bool.true_and, List.all_eq_true]
    intro i hi
    exact hbits i (h i hi)

theorem addAll_mono : ∀ (ws : List (List Nat)) (b b' : BloomFilter), addAll b ws = some b' →
    b'.m = b.m ∧ b'.k = b.k ∧
      ∀ j, b.bucket.testBit j = true → b'.bucket.testBit j = true := by
  intro ws
  induction ws with
  | nil =>
    intro b b' h
    unfold addAll at h
    rw [Option.some_inj] at h
    subst h
    exact ⟨rfl, rfl, fun _ h => h⟩
  | cons v vs ih =>
    intro b b' h
    unfold addAll at h
    cases ha : AddBytes b v with
    | none => rw [ha] at h; exact absurd h (by simp)
    | some b1 =>
      rw [ha, Option.some_bind] at h
      obtain ⟨hm1, hk1, idxs, hp, hb⟩ := addBytes_some_inv ha
      obtain ⟨hm2, hk2, hmono⟩ := ih b1 b' h
      refine ⟨hm2.trans hm1, hk2.trans hk1, fun j hj => hmono j ?_⟩
      rw [hb]
      exact setBits_mono idxs b.bucket j hj

theorem add_then_contains {b : BloomFilter} (hmu : uint32ofInt b.m ≠ 0) (value : List Nat) :
    ∃ b1, AddBytes b value = some b1 ∧ ContainsBytes b1 value = some true ∧
      ∀ ws b2, addAll b1 ws = some b2 → ContainsBytes b2 value = some true := by
  have hadd := addBytes_eq hmu value
  have hc1 : ContainsBytes { b with bucket := setBits b.bucket (probeList b value) }
      value = some true := by
    rw [@containsBytes_eq { b with bucket := setBits b.bucket (probeList b value) } hmu value]
    rw [Option.some_inj, List.all_eq_true]
    intro i hi
    exact setBits_mem (probeList b value) b.bucket i hi
  refine ⟨_, hadd, hc1, fun ws b2 hws => ?_⟩
  obtain ⟨hm2, hk2, hmono⟩ := addAll_mono ws _ b2 hws
  exact contains_true_mono hm2 hk2 hmono hc1

theorem ops_total {b : BloomFilter} (hmu : uint32ofInt b.m ≠ 0) (value : List Nat) :
    (∃ b1, AddBytes b value = some b1) ∧ ∃ r, ContainsBytes b value = some r :=
  ⟨⟨_, addBytes_eq hmu value⟩, ⟨_, containsBytes_eq hmu value⟩⟩

theorem probes_none_of_mu_zero {b : BloomFilter} (hmu : uint32ofInt b.m = 0) (hk : 0 < b.k)
    (value : List Nat) : probes b value = none := by
  unfold probes
  cases hI : hashIndices b with
  | nil =>
    exfalso
    have := congrArg List.length hI
    simp only [hashIndices, List.length_map, List.length_range, List.length_nil] at this
    omega
  | cons x xs => simp [probeAux, kiMiHash, hmu]

theorem allOnes_eq_all (bucket : Nat) : ∀ idxs : List Nat,
    allOnes bucket idxs = idxs.all (fun i => bucket.testBit i) := by
  intro idxs
  induction idxs with
  | nil => rfl
  | cons x xs ih =>
    simp only [allOnes, List.all_cons, ih]
    cases hx : bucket.testBit x <;> simp [hx]

/-! Theorems for the frozen claims. -/

/-- C1: No false negatives, permanently. For every filter within the data
model invariant (1 ≤ m ≤ 2^31 − 1, so that `uint32(m)` is a nonzero 32-bit
value) with k ≥ 1, and every byte sequence, AddBytes succeeds, ContainsBytes
then returns true, and it still returns true after any subsequent sequence
of AddBytes calls with arbitrary other values: adds never un-set a bit. -/
theorem no_false_negatives (b : BloomFilter) (value : List Nat) (ws : List (List Nat))
    (hm1 : 1 ≤ b.m) (hm2 : b.m ≤ 2 ^ 31 - 1) (hk : 1 ≤ b.k) :
    ∃ b1, AddBytes b value = some b1 ∧ ContainsBytes b1 value = some true ∧
      ∀ b2, addAll b1 ws = some b2 → ContainsBytes b2 value = some true := by
  obtain ⟨b1, h1, h2, h3⟩ := add_then_contains (mu_ne_zero hm1 hm2) value
  exact ⟨b1, h1, h2, h3 ws⟩

/-- Witness for C1, at a concrete filter and concrete values. -/
theorem no_false_negatives_witness :
    ∃ b1, AddBytes (NewMK 8 2) [3, 1] = some b1 ∧ ContainsBytes b1 [3, 1] = some true ∧
      ∀ b2, addAll b1 [[7]] = some b2 → ContainsBytes b2 [3, 1] = some true :=
  no_false_negatives (NewMK 8 2) [3, 1] [[7]] (by decide) (by decide) (by decide)

/-- C2: Probe-position formula. For every filter within the invariant and
every probe number i below k, `kiMiHash` returns exactly the spec formula
`position_spec`: (hash1(v) + i · hash2(v)) mod m with 32-bit unsigned
wraparound for the addition and the multiplication, where hash1 is FNV-1a
and hash2 is CRC-32/IEEE. -/
theorem kiMiHash_matches_spec (b : BloomFilter) (value : List Nat) (i : Nat)
    (hm1 : 1 ≤ b.m) (hm2 : b.m ≤ 2 ^ 31 - 1) (hik : (i : Int) < b.k) :
    kiMiHash b value (Int.ofNat i) = some (position_spec value i b.m.toNat) := by
  have hmu := mu_ne_zero hm1 hm2
  rw [kiMiHash_eq hmu, Option.some_inj]
  unfold probePos position_spec
  rw [uint32ofInt_ofNat]
  rw [uint32ofInt_of_lt (by omega) (by omega)]
  have hmul : (hash2 value * (i % 2 ^ 32)) % 2 ^ 32 = (i * hash2 value) % 2 ^ 32 := by
    conv_lhs => rw [Nat.mul_mod]
    conv_rhs => rw [Nat.mul_comm, Nat.mul_mod]
    rw [Nat.mod_mod_of_dvd i (dvd_refl (2 ^ 32))]
  rw [hmul]

/-- Witness for C2, at a concrete filter, value and probe number. -/
theorem kiMiHash_matches_spec_witness :
    kiMiHash (NewMK 7 3) [5] (Int.ofNat 1) = some (position_spec [5] 1 (Int.toNat 7)) :=
  kiMiHash_matches_spec (NewMK 7 3) [5] 1 (by decide) (by decide) (by decide)

/-- C3: Membership query semantics. For every filter within the invariant
with k ≥ 1, the k probe positions exist, ContainsBytes returns true iff all
k probe bits are 1, returns false as soon as one probe bit is 0, and agrees
with the short-circuiting variant that stops at the first zero bit. -/
theorem contains_iff_all_bits (b : BloomFilter) (value : List Nat)
    (hm1 : 1 ≤ b.m) (hm2 : b.m ≤ 2 ^ 31 - 1) (hk : 1 ≤ b.k) :
    ∃ idxs, probes b value = some idxs ∧ idxs.length = b.k.toNat ∧
      (ContainsBytes b value = some true ↔ ∀ i ∈ idxs, b.bucket.testBit i = true) ∧
      (∀ i ∈ idxs, b.bucket.testBit i = false → ContainsBytes b value = some false) ∧
      ContainsBytes b value = containsShortCircuit b value := by
  have hmu := mu_ne_zero hm1 hm2
  refine ⟨probeList b value, probes_eq hmu value, ?_, ?_, ?_, ?_⟩
  · unfold probeList hashIndices
    simp [List.length_map, List.length_range]
  · rw [containsBytes_eq hmu]
    simp [List.all_eq_true]
  · intro i hi hbit
    rw [containsBytes_eq hmu, Option.some_inj, List.all_eq_false]
    exact ⟨i, hi, by simp [hbit]⟩
  · unfold ContainsBytes containsShortCircuit
    congr 1
    funext idxs
    rw [foldl_check, Bool.true_and, allOnes_eq_all]

/-- Witness for C3, at a concrete filter and value. -/
theorem contains_iff_all_bits_witness :
    ∃ idxs, probes (NewMK 4 2) [9] = some idxs ∧ idxs.length = (NewMK 4 2).k.toNat ∧
      (ContainsBytes (NewMK 4 2) [9] = some true ↔
        ∀ i ∈ idxs, (NewMK 4 2).bucket.testBit i = true) ∧
      (∀ i ∈ idxs, (NewMK 4 2).bucket.testBit i = false →
        ContainsBytes (NewMK 4 2) [9] = some false) ∧
      ContainsBytes (NewMK 4 2) [9] = containsShortCircuit (NewMK 4 2) [9] :=
  contains_iff_all_bits (NewMK 4 2) [9] (by decide) (by decide) (by decide)

/-- C4: Construction clamping. Whatever integer pair the floating-point
sizing function returns, the constructor New yields a filter with
1 ≤ m ≤ 2^31 − 1 and k ≥ 1, without any error, and that filter satisfies
the no-false-negative property after one insertion. -/
theorem new_clamps (mk : Int × Int) (value : List Nat) :
    1 ≤ (NewClamp mk).m ∧ (NewClamp mk).m ≤ 2 ^ 31 - 1 ∧ 1 ≤ (NewClamp mk).k ∧
      ∃ b1, AddBytes (NewClamp mk) value = some b1 ∧
        ContainsBytes b1 value = some true := by
  have hm1 : 1 ≤ (NewClamp mk).m := by
    show 1 ≤ (if mk.1 < 1 then 1 else if mk.1 > 2 ^ 31 - 1 then 2 ^ 31 - 1 else mk.1)
    split
    · omega
    · split <;> omega
  have hm2 : (NewClamp mk).m ≤ 2 ^ 31 - 1 := by
    show (if mk.1 < 1 then 1 else if mk.1 > 2 ^ 31 - 1 then 2 ^ 31 - 1 else mk.1) ≤ _
    split
    · omega
    · split <;> omega
  have hk : 1 ≤ (NewClamp mk).k := by
    show 1 ≤ (if mk.2 < 1 then 1 else mk.2)
    split <;> omega
  obtain ⟨b1, h1, h2, _⟩ := add_then_contains (mu_ne_zero hm1 hm2) value
  exact ⟨hm1, hm2, hk, b1, h1, h2⟩

/-- C6: Empty-filter correctness. A filter freshly constructed with NewMK
(m and k within the invariants, no insertion performed) answers false to
every membership query: the bit array is all zero, and each of the k ≥ 1
probes finds a zero bit. -/
theorem empty_filter_contains_false (m k : Int) (value : List Nat)
    (hm1 : 1 ≤ m) (hm2 : m ≤ 2 ^ 31 - 1) (hk : 1 ≤ k) :
    ContainsBytes (NewMK m k) value = some false := by
  have hmu : uint32ofInt (NewMK m k).m ≠ 0 := mu_ne_zero hm1 hm2
  rw [containsBytes_eq hmu, Option.some_inj, List.all_eq_false]
  have h0 : (Int.ofNat 0) ∈ hashIndices (NewMK m k) := by
    unfold hashIndices
    refine List.mem_map_of_mem _ (List.mem_range.mpr ?_)
    show 0 < k.toNat
    omega
  refine ⟨probePos (NewMK m k) value (Int.ofNat 0), List.mem_map_of_mem _ h0, ?_⟩
  show ¬(Nat.testBit 0 _ = true)
  rw [Nat.zero_testBit]
  simp

/-- Witness for C6, at a concrete filter and value. -/
theorem empty_filter_contains_false_witness :
    ContainsBytes (NewMK 1 1) [2] = some false :=
  empty_filter_contains_false 1 1 [2] (by decide) (by decide) (by decide)

/-- C7: No failure mode. For every filter within the invariant, every bit
index produced by kiMiHash is below m, and AddBytes and ContainsBytes always
succeed (they stay within the m-bit array and cannot fail). -/
theorem probe_indices_in_range (b : BloomFilter) (value : List Nat)
    (hm1 : 1 ≤ b.m) (hm2 : b.m ≤ 2 ^ 31 - 1) :
    (∀ (hashIdx : Int) (p : Nat), kiMiHash b value hashIdx = some p → (p : Int) < b.m) ∧
      (∃ b1, AddBytes b value = some b1) ∧ ∃ r, ContainsBytes b value = some r := by
  have hmu := mu_ne_zero hm1 hm2
  refine ⟨fun hashIdx p hp => ?_, ops_total hmu value⟩
  rw [kiMiHash_eq hmu, Option.some_inj] at hp
  subst hp
  have hlt := probePos_lt hmu value hashIdx
  have hmu_eq : uint32ofInt b.m = b.m.toNat := uint32ofInt_of_lt (by omega) (by omega)
  rw [hmu_eq] at hlt
  omega

/-- Witness for C7, at a concrete filter and value. -/
theorem probe_indices_in_range_witness :
    (∀ (hashIdx : Int) (p : Nat),
      kiMiHash (NewMK 5 2) [4] hashIdx = some p → (p : Int) < (NewMK 5 2).m) ∧
      (∃ b1, AddBytes (NewMK 5 2) [4] = some b1) ∧
      ∃ r, ContainsBytes (NewMK 5 2) [4] = some r :=
  probe_indices_in_range (NewMK 5 2) [4] (by decide) (by decide)

/-- C8: Typed-wrapper round-trip via the fixed little-endian encoding. The
32-bit wrappers operate on the 4-byte little-endian encoding and the 64-bit
wrappers on the 8-byte one, so inserting an unsigned integer and then
querying it returns true on every filter within the invariant with k ≥ 1. -/
theorem uint_wrappers_roundtrip (b : BloomFilter) (x32 x64 : Nat)
    (hm1 : 1 ≤ b.m) (hm2 : b.m ≤ 2 ^ 31 - 1) (hk : 1 ≤ b.k)
    (h32 : x32 < 2 ^ 32) (h64 : x64 < 2 ^ 64) :
    AddUInt32 b x32 = AddBytes b (putUint32LE x32) ∧
    ContainsUInt32 b x32 = ContainsBytes b (putUint32LE x32) ∧
    AddUInt64 b x64 = AddBytes b (putUint64LE x64) ∧
    ContainsUInt64 b x64 = ContainsBytes b (putUint64LE x64) ∧
    (∃ b1, AddUInt32 b x32 = some b1 ∧ ContainsUInt32 b1 x32 = some true) ∧
    ∃ b2, AddUInt64 b x64 = some b2 ∧ ContainsUInt64 b2 x64 = some true := by
  have hmu := mu_ne_zero hm1 hm2
  obtain ⟨b1, ha1, hc1, _⟩ := add_then_contains hmu (putUint32LE x32)
  obtain ⟨b2, ha2, hc2, _⟩ := add_then_contains hmu (putUint64LE x64)
  exact ⟨rfl, rfl, rfl, rfl, ⟨b1, ha1, hc1⟩, ⟨b2, ha2, hc2⟩⟩

/-- Witness for C8, at a concrete filter and concrete integers. -/
theorem uint_wrappers_roundtrip_witness :
    AddUInt32 (NewMK 16 2) 5 = AddBytes (NewMK 16 2) (putUint32LE 5) ∧
    ContainsUInt32 (NewMK 16 2) 5 = ContainsBytes (NewMK 16 2) (putUint32LE 5) ∧
    AddUInt64 (NewMK 16 2) 6 = AddBytes (NewMK 16 2) (putUint64LE 6) ∧
    ContainsUInt64 (NewMK 16 2) 6 = ContainsBytes (NewMK 16 2) (putUint64LE 6) ∧
    (∃ b1, AddUInt32 (NewMK 16 2) 5 = some b1 ∧ ContainsUInt32 b1 5 = some true) ∧
    ∃ b2, AddUInt64 (NewMK 16 2) 6 = some b2 ∧ ContainsUInt64 b2 6 = some true :=
  uint_wrappers_roundtrip (NewMK 16 2) 5 6 (by decide) (by decide) (by decide)
    (by decide) (by decide)

/-- C9: Idempotence of insertion. Adding the same byte sequence twice in
succession yields exactly the same filter state as adding it once, on every
filter state (when the first call fails, so does the repeated call). -/
theorem addBytes_idempotent (b : BloomFilter) (value : List Nat) :
    (AddBytes b value).bind (fun b1 => AddBytes b1 value) = AddBytes b value := by
  cases hp : probes b value with
  | none => unfold AddBytes; rw [hp]; rfl
  | some idxs =>
    have h1 : AddBytes b value = some { b with bucket := setBits b.bucket idxs } := by
      unfold AddBytes
      rw [hp, Option.map_some']
    rw [h1, Option.some_bind]
    unfold AddBytes
    rw [@probes_congr b { b with bucket := setBits b.bucket idxs } rfl rfl value,
      hp, Option.map_some', Option.some_inj, setBits_idem]

/-- C10: Degenerate m. A filter built by NewMK with m = 0 (and k ≥ 1) fails
every AddBytes and ContainsBytes call with the division-by-zero error of
`% uint32(b.m)`, while under the data-model precondition on m the error is
unreachable and both operations are total. -/
theorem newMK_m_zero_errors (k : Int) (value : List Nat) (hk : 1 ≤ k) :
    AddBytes (NewMK 0 k) value = none ∧ ContainsBytes (NewMK 0 k) value = none ∧
      ∀ b : BloomFilter, 1 ≤ b.m → b.m ≤ 2 ^ 31 - 1 →
        (∃ b1, AddBytes b value = some b1) ∧ ∃ r, ContainsBytes b value = some r := by
  have hmu : uint32ofInt (NewMK 0 k).m = 0 := rfl
  have hk0 : 0 < (NewMK 0 k).k := by
    show 0 < k
    omega
  have hpn := probes_none_of_mu_zero hmu hk0 value
  refine ⟨?_, ?_, fun b hb1 hb2 => ops_total (mu_ne_zero hb1 hb2) value⟩
  · unfold AddBytes
    rw [hpn]
    rfl
  · unfold ContainsBytes
    rw [hpn]
    rfl

/-- Witness for C10, at a concrete k and value. -/
theorem newMK_m_zero_errors_witness :
    AddBytes (NewMK 0 1) [0] = none ∧ ContainsBytes (NewMK 0 1) [0] = none ∧
      ∀ b : BloomFilter, 1 ≤ b.m → b.m ≤ 2 ^ 31 - 1 →
        (∃ b1, AddBytes b [0] = some b1) ∧ ∃ r, ContainsBytes b [0] = some r :=
  newMK_m_zero_errors 1 [0] (by decide)

end Bloomflt
